import Mathlib

/-!
# Verification of the rustdoc-static tree renderer

A shallow embedding of `src/lib.rs` of the `rustdoc-static` repository: the
path deriver (`path_for_resource`), the per-resource context builder
(`generate_context`, including its relative-link computation via
`pathdiff::diff_paths`), the documentation renderer (`docs_for_resource`),
and the tree writer (`render_docs` / `write_doc`).

Rust `PathBuf` values are modelled by their underlying string (the byte
content of the path), with `PathBuf::push`, `Path::components`,
`Path::file_name` and `Path::parent` modelled explicitly for Unix paths.
Rust panics (`panic!`, `unimplemented!`, `Option::unwrap` on `None`,
`Result::unwrap` on `Err`, `expect`) are modelled as an explicit `Panic`
error channel; `io::Result` errors propagated with `?` are modelled
separately, so that a returned error value and a process-aborting panic
remain distinguishable.  External collaborators (the markdown converter,
the template engine, the filesystem) are injected as parameters.
-/

namespace RustdocStatic

/-- Rust `str::split("::")` on a character list: leftmost non-overlapping
matches of the two-character separator `::`. -/
def splitCC : List Char → List (List Char)
  | [] => [[]]
  | [c] => [[c]]
  | c₁ :: c₂ :: rest =>
    if c₁ = ':' ∧ c₂ = ':' then [] :: splitCC rest
    else (splitCC (c₂ :: rest)).modifyHead (c₁ :: ·)

/-- Splitting a character list at every `/`, as `Path::components` does
before normalization. -/
def splitSlash : List Char → List (List Char)
  | [] => [[]]
  | c :: rest =>
    if c = '/' then [] :: splitSlash rest
    else (splitSlash rest).modifyHead (c :: ·)

/-- Joining character-list pieces with a separator. -/
def joinC (sep : List Char) : List (List Char) → List Char
  | [] => []
  | [x] => x
  | x :: xs => x ++ sep ++ joinC sep xs

/-- Rust `str::split("::")`, returning the pieces as strings. -/
def strSplitCC (s : String) : List String := (splitCC s.data).map String.mk

/-- Joining strings with `/`: the string produced by pushing the pieces onto
an empty `PathBuf` when no piece is empty, absolute, or slash-terminated. -/
def joinSlash : List String → String
  | [] => ""
  | [p] => p
  | p :: rest => p ++ "/" ++ joinSlash rest

/-- Model of `PathBuf::push` (Unix): an absolute argument replaces the
buffer, otherwise a `/` separator is inserted unless the buffer is empty or
already ends in a separator. -/
def pushPath (buf comp : String) : String :=
  if comp.data.head? = some '/' then comp
  else if buf.data = [] then comp
  else if buf.data.getLast? = some '/' then buf ++ comp
  else buf ++ "/" ++ comp

/-- Model of `FromIterator`/`collect` for `PathBuf`: push every piece in
order onto an empty buffer. -/
def collectPath (segs : List String) : String := segs.foldl pushPath ""

/-- One component of a Unix path, after the normalization performed by
`Path::components`. -/
inductive PComp
  | rootDir
  | curDir
  | parentDir
  | normal (s : String)
deriving DecidableEq

/-- Model of `Component::as_os_str`, as a string. -/
def compToStr : PComp → String
  | .rootDir => "/"
  | .curDir => "."
  | .parentDir => ".."
  | .normal s => s

/-- Classification of one raw slash-separated piece: empty pieces and
interior `.` pieces are dropped, `..` becomes a parent-directory component. -/
def classifyPiece (x : String) : Option PComp :=
  if x = "" then none
  else if x = "." then none
  else if x = ".." then some PComp.parentDir
  else some (PComp.normal x)

/-- Model of `Path::components` for a Unix path: a leading `/` yields a root
component, a leading `.` piece of a relative path is kept as `CurDir`, all
other pieces are classified by `classifyPiece`. -/
def componentsOf (s : String) : List PComp :=
  if s.data = [] then []
  else if s.data.head? = some '/' then
    PComp.rootDir :: ((splitSlash s.data).map String.mk).filterMap classifyPiece
  else if ((splitSlash s.data).map String.mk).head? = some "." then
    PComp.curDir :: ((splitSlash s.data).map String.mk).tail.filterMap classifyPiece
  else ((splitSlash s.data).map String.mk).filterMap classifyPiece

/-- Model of `Path::file_name`: the last component if it is a normal one. -/
def fileName (s : String) : Option String :=
  match (componentsOf s).getLast? with
  | some (PComp.normal x) => some x
  | _ => none

/-- Model of `Path::parent`, reconstructed canonically from the components:
`none` for the empty path and for the root, otherwise the path made of all
components but the last. -/
def parentPath (s : String) : Option String :=
  if componentsOf s = [] ∨ componentsOf s = [PComp.rootDir] then none
  else some (collectPath ((componentsOf s).dropLast.map compToStr))

/-- A JSON attribute value, as consumed by `docs_for_resource`: either a
string or any non-string JSON value. -/
inductive AttrVal
  | str (s : String)
  | nonStr
deriving DecidableEq

/-- Model of `jsonapi::api::ResourceIdentifier` (the consumed fields). -/
structure ResourceIdentifier where
  type_ : String
  id : String
deriving DecidableEq

/-- Model of `jsonapi::api::IdentifierData`. -/
inductive IdentifierData
  | noneId
  | singleId (r : ResourceIdentifier)
  | multipleId (rs : List ResourceIdentifier)
deriving DecidableEq

/-- Model of `jsonapi::api::Relationship` (the consumed field). -/
structure Relationship where
  data : IdentifierData
deriving DecidableEq

/-- Model of `jsonapi::api::Resource` (the consumed fields: `_type`, `id`,
`attributes`, `relationships`). -/
structure Resource where
  type_ : String
  id : String
  attributes : List (String × AttrVal) := []
  relationships : Option (List (String × Relationship)) := none
deriving DecidableEq

/-- Model of `jsonapi::api::PrimaryData`. -/
inductive PrimaryData
  | nonePD
  | single (r : Resource)
  | multiple (rs : List Resource)
deriving DecidableEq

/-- Model of `jsonapi::api::JsonApiDocument` (the consumed fields). -/
structure Document where
  data : Option PrimaryData := none
  included : Option (List Resource) := none
deriving DecidableEq

/-- Model of `HashMap::get` on the attribute map (association list in
iteration order, first match wins). -/
def lookupAttr (attrs : List (String × AttrVal)) (k : String) : Option AttrVal :=
  (attrs.find? (fun p => p.1 == k)).map (fun p => p.2)

/-- The panic sites of `src/lib.rs`, one constructor each, so that a
process-aborting panic is never conflated with an `io::Result` error value
returned to the caller. -/
inductive Panic
  | notImplemented      -- `unimplemented!()` in `path_for_resource`
  | unwrapNone          -- `Option::unwrap` on `None`
  | docsNotString       -- `expect("docs attribute was not a string")`
  | relNotMultiple      -- `panic!()` on non-`Multiple` relationship data
  | primaryNotSingle    -- `panic!()` on non-`Single` primary data
  | registerUnwrap      -- `register_template_file(..).unwrap()` on `Err`
  | renderUnwrap        -- `handlebars.render(..).unwrap()` on `Err`
  | writeUnwrap         -- `file.write_all(..).unwrap()` on `Err`
deriving DecidableEq

/-- An opaque `io::Error`. -/
structure IoErr where
  code : Nat
deriving DecidableEq

/-- An opaque template-engine error. -/
structure RenderErr where
  msg : String
deriving DecidableEq

/-- A warning logged with `warn!`; the source message identifies the missing
target id. -/
structure Warning where
  missingId : String
deriving DecidableEq

/-- Model of `path_for_resource` (src/lib.rs:156-173).  Splits the id on
`::`, collects the pieces into a `PathBuf`; `module`/`crate` resources get
`index.html` appended; `struct` resources drop the file name of the
collected path and append `struct.<file-name>.html`; any other kind hits
`unimplemented!()`.  The `Panic` error models the process-aborting panic:
the Rust function's return type (`PathBuf`) has no failure channel. -/
def pathForResource (r : Resource) : Except Panic String :=
  if r.type_ = "module" ∨ r.type_ = "crate" then
    .ok (pushPath (collectPath (strSplitCC r.id)) "index.html")
  else if r.type_ = "struct" then
    match fileName (collectPath (strSplitCC r.id)) with
    | none => .error .unwrapNone
    | some itemName =>
      .ok (pushPath
        ((parentPath (collectPath (strSplitCC r.id))).getD (collectPath (strSplitCC r.id)))
        ("struct." ++ itemName ++ ".html"))
  else
    .error .notImplemented

/-- Model of `docs_for_resource` (src/lib.rs:176-190).  Here `md` is the
external markdown-to-HTML conversion (`pulldown_cmark`), injected as a pure
function. -/
def docsForResource (md : String → String) (r : Resource) :
    Except Panic (Option String) :=
  match lookupAttr r.attributes "docs" with
  | none => .ok none
  | some (.str s) => .ok (if md s ≠ "" then some (md s) else none)
  | some .nonStr => .error .docsNotString

/-- Model of `resource_by_id` (src/lib.rs:193-197). -/
def resourceById (doc : Document) (id : String) : Option Resource :=
  doc.included.bind (fun included => included.find? (fun r => r.id == id))

/-- Model of `id.rsplit("::").next().unwrap_or_else(|| id)`: the last
`::`-separated segment of an id (the `unwrap_or_else` arm is dead, a split
is never empty). -/
def lastSegment (id : String) : String := ((strSplitCC id).getLast?).getD id

/-- The loop body of `pathdiff::diff_paths` (pathdiff 0.1), on component
lists. -/
def diffAux (acc a : List PComp) : List PComp → Option (List PComp)
  | [] =>
    match a with
    | [] => some acc
    | a₀ :: ita => some (acc ++ a₀ :: ita)
  | b :: itb =>
    match a with
    | [] => diffAux (acc ++ [PComp.parentDir]) [] itb
    | a₀ :: ita =>
      if acc.isEmpty ∧ a₀ = b then diffAux [] ita itb
      else if b = PComp.curDir then diffAux (acc ++ [a₀]) ita itb
      else if b = PComp.parentDir then none
      else some (acc ++ PComp.parentDir :: (itb.map fun _ => PComp.parentDir) ++ a₀ :: ita)

/-- Model of `pathdiff::diff_paths(path, base)`: differing absoluteness is
handled up front, otherwise the component loop runs. -/
def diffPaths (path base : String) : Option (List PComp) :=
  if (path.data.head? = some '/') ≠ (base.data.head? = some '/') then
    if path.data.head? = some '/' then some (componentsOf path) else none
  else diffAux [] (componentsOf path) (componentsOf base)

/-- The link block of `generate_context` (src/lib.rs:105-119): the relative
path from the parent resource's output folder to the child resource's output
file, components joined with `/`.  Both the `parent()` and the `diff_paths`
results are `unwrap`ped in the source. -/
def linkFor (parent child : Resource) : Except Panic String :=
  match pathForResource parent with
  | .error p => .error p
  | .ok parentPathStr =>
    match parentPath parentPathStr with
    | none => .error .unwrapNone
    | some parentFolder =>
      match pathForResource child with
      | .error p => .error p
      | .ok childPath =>
        match diffPaths childPath parentFolder with
        | none => .error .unwrapNone
        | some comps => .ok (joinSlash (comps.map compToStr))

/-- One rendered child summary of a `sections` entry. -/
structure Summary where
  name : String
  link : String
  docs : Option String
deriving DecidableEq

/-- The rendering context produced by `generate_context`: always `type` and
`name`, plus `docs` when present and `sections` when the resource has
relationships. -/
structure Context where
  type_ : String
  name : String
  docs : Option String
  sections : Option (List (String × List Summary))
deriving DecidableEq

/-- The `flat_map` body of `generate_context` (src/lib.rs:96-137): each
target id is looked up in the document; found targets yield a summary, and a
missing target yields a `warn!` and is skipped. -/
def processTargets (md : String → String) (doc : Document) (parent : Resource) :
    List ResourceIdentifier → Except Panic (List Summary × List Warning)
  | [] => .ok ([], [])
  | rid :: rest =>
    match resourceById doc rid.id with
    | some related =>
      match linkFor parent related with
      | .error p => .error p
      | .ok link =>
        match docsForResource md related with
        | .error p => .error p
        | .ok ds =>
          match processTargets md doc parent rest with
          | .error p => .error p
          | .ok (sums, ws) =>
            .ok ({ name := lastSegment related.id, link := link, docs := ds } :: sums, ws)
    | none =>
      match processTargets md doc parent rest with
      | .error p => .error p
      | .ok (sums, ws) => .ok (sums, Warning.mk rid.id :: ws)

/-- The relationships loop of `generate_context` (src/lib.rs:89-144): every
relationship entry is inserted into `sections`, with non-`Multiple`
relationship data hitting `panic!()`. -/
def buildSections (md : String → String) (doc : Document) (parent : Resource) :
    List (String × Relationship) → Except Panic (List (String × List Summary) × List Warning)
  | [] => .ok ([], [])
  | (key, rel) :: rest =>
    match rel.data with
    | .multipleId ids =>
      match processTargets md doc parent ids with
      | .error p => .error p
      | .ok (sums, ws) =>
        match buildSections md doc parent rest with
        | .error p => .error p
        | .ok (secs, ws') => .ok ((key, sums) :: secs, ws ++ ws')
    | _ => .error .relNotMultiple

/-- Model of `generate_context` (src/lib.rs:74-153), additionally returning
the warnings logged along the way. -/
def generateContext (md : String → String) (doc : Document) (r : Resource) :
    Except Panic (Context × List Warning) :=
  match docsForResource md r with
  | .error p => .error p
  | .ok ds =>
    match r.relationships with
    | none => .ok ({ type_ := r.type_, name := r.id, docs := ds, sections := none }, [])
    | some rels =>
      match buildSections md doc r rels with
      | .error p => .error p
      | .ok (secs, ws) =>
        .ok ({ type_ := r.type_, name := r.id, docs := ds, sections := some secs }, ws)

/-- The external effect oracle: what each filesystem / template-engine call
would return. -/
structure World where
  registerTemplate : Except RenderErr Unit
  createDirAll : String → Except IoErr Unit
  createFile : String → Except IoErr Unit
  render : Context → Except RenderErr String
  writeAll : String → String → Except IoErr Unit

/-- An observable filesystem event, in execution order. -/
inductive Event
  | createdDir (path : String)
  | createdFile (path : String)
  | wrote (path : String) (content : String)
deriving DecidableEq

/-- How a run ends: normal return, an error value returned to the caller, or
a process-aborting panic. -/
inductive Outcome
  | ok
  | ioError (e : IoErr)
  | panicked (p : Panic)
deriving DecidableEq

/-- Model of `write_doc` (src/lib.rs:54-70): derive the path, create the
parent directory (`?`), create the file (`?`), build the context, render the
template (`.unwrap()`), write the bytes (`.unwrap()`). -/
def writeDoc (w : World) (md : String → String) (doc : Document) (r : Resource)
    (docRoot : String) : List Event × Outcome :=
  match pathForResource r with
  | .error p => ([], .panicked p)
  | .ok rel =>
    let path := pushPath docRoot rel
    match parentPath path with
    | none => ([], .panicked .unwrapNone)
    | some parentDir =>
      match w.createDirAll parentDir with
      | .error e => ([], .ioError e)
      | .ok _ =>
        match w.createFile path with
        | .error e => ([.createdDir parentDir], .ioError e)
        | .ok _ =>
          match generateContext md doc r with
          | .error p => ([.createdDir parentDir, .createdFile path], .panicked p)
          | .ok (ctx, _ws) =>
            match w.render ctx with
            | .error _ => ([.createdDir parentDir, .createdFile path], .panicked .renderUnwrap)
            | .ok out =>
              match w.writeAll path out with
              | .error _ => ([.createdDir parentDir, .createdFile path], .panicked .writeUnwrap)
              | .ok _ => ([.createdDir parentDir, .createdFile path, .wrote path out], .ok)

/-- The `for resource in document.included...` loop of `render_docs`:
`write_doc` on every included resource, stopping at the first non-`ok`
outcome (`?` propagates errors, panics abort). -/
def writeAllDocs (w : World) (md : String → String) (doc : Document)
    (docRoot : String) (acc : List Event) : List Resource → List Event × Outcome
  | [] => (acc, .ok)
  | r :: rest =>
    match writeDoc w md doc r docRoot with
    | (evs, Outcome.ok) => writeAllDocs w md doc docRoot (acc ++ evs) rest
    | (evs, Outcome.ioError e) => (acc ++ evs, .ioError e)
    | (evs, Outcome.panicked p) => (acc ++ evs, .panicked p)

/-- Model of `render_docs` (src/lib.rs:28-51): register the template
(`.unwrap()`), create `<root>/doc2` (`?`), unwrap the primary resource
(`panic!()` if not `Single`), write the primary's doc, then
`document.included.as_ref().unwrap()` and write every included resource's
doc. -/
def renderDocs (w : World) (md : String → String) (doc : Document) (root : String) :
    List Event × Outcome :=
  match w.registerTemplate with
  | .error _ => ([], .panicked .registerUnwrap)
  | .ok _ =>
    let docRoot := pushPath root "doc2"
    match w.createDirAll docRoot with
    | .error e => ([], .ioError e)
    | .ok _ =>
      match doc.data with
      | some (.single primary) =>
        match writeDoc w md doc primary docRoot with
        | (evs, Outcome.ok) =>
          match doc.included with
          | none => ([Event.createdDir docRoot] ++ evs, .panicked .unwrapNone)
          | some included =>
            writeAllDocs w md doc docRoot ([Event.createdDir docRoot] ++ evs) included
        | (evs, Outcome.ioError e) => ([Event.createdDir docRoot] ++ evs, .ioError e)
        | (evs, Outcome.panicked p) => ([Event.createdDir docRoot] ++ evs, .panicked p)
      | _ => ([Event.createdDir docRoot], .panicked .primaryNotSingle)

/-- A plain path piece: nonempty, slash-free and not a current- or
parent-directory marker.  Identifier segments of this shape survive the
`PathBuf` round trip unchanged. -/
def plainSeg (s : String) : Bool :=
  s ≠ "" && !s.data.contains '/' && s ≠ "." && s ≠ ".."

/-- A well-formed identifier: every `::`-separated segment is plain. -/
def wfId (id : String) : Bool := (strSplitCC id).all plainSeg

/-- Modelled from the spec: resolving a relative link against a base
directory, as a browser or filesystem would — append the link's components
to the base's, where `..` removes the last component and `.` is ignored. -/
def resolveRel (base rel : List PComp) : List PComp :=
  rel.foldl
    (fun acc c =>
      match c with
      | PComp.parentDir => acc.dropLast
      | PComp.curDir => acc
      | c => acc ++ [c])
    base

/-- Length of the common prefix of two component lists. -/
def commonLen : List PComp → List PComp → Nat
  | x :: xs, y :: ys => if x = y then commonLen xs ys + 1 else 0
  | _, _ => 0

/-- A markdown converter that renders nothing (external collaborator stub). -/
def mdEmpty : String → String := fun _ => ""

/-- An effect oracle on which every external call succeeds. -/
def worldOK : World :=
  { registerTemplate := .ok ()
    createDirAll := fun _ => .ok ()
    createFile := fun _ => .ok ()
    render := fun _ => .ok "HTML"
    writeAll := fun _ _ => .ok () }

/-- Like `worldOK` but the template engine reports a rendering failure. -/
def worldRenderFail : World :=
  { worldOK with render := fun _ => .error ⟨"template failure"⟩ }

/-- Like `worldOK` but every directory creation fails. -/
def worldDirFail : World :=
  { worldOK with createDirAll := fun _ => .error ⟨7⟩ }

/-- The module resource of the repository's own test fixture. -/
def moduleRes : Resource := { type_ := "module", id := "test_crate::test_module" }

/-- The struct resource of the repository's own test fixture. -/
def structRes : Resource := { type_ := "struct", id := "test_crate::TestStruct" }

/-- A struct nested inside `moduleRes` (the spec's link scenario). -/
def childStructRes : Resource :=
  { type_ := "struct", id := "test_crate::test_module::TestStruct" }

/-- A crate resource used as a primary entity in concrete runs. -/
def crateRes : Resource := { type_ := "crate", id := "test_crate" }

/-- A module carrying a documentation attribute. -/
def docsRes : Resource :=
  { type_ := "module", id := "m", attributes := [("docs", AttrVal.str "# d")] }

/-- A resource of a kind unsupported by path derivation. -/
def enumRes : Resource := { type_ := "enum", id := "test_crate::TestEnum" }

/-- A document with no data and no included collection. -/
def emptyDoc : Document := { data := none, included := none }

/-- A document whose primary is `crateRes`, with an empty included
collection. -/
def docCrate : Document := { data := some (.single crateRes), included := some [] }

/-- A document whose primary is `crateRes` and whose `included` collection
is absent. -/
def docNoIncluded : Document := { data := some (.single crateRes), included := none }

/-- A document whose primary is of an unsupported kind. -/
def docWithEnum : Document := { data := some (.single enumRes), included := some [] }

/-- A module with one relationship entry whose single target is missing
from `included`. -/
def danglingParent : Resource :=
  { type_ := "module", id := "m",
    relationships := some [("items", ⟨.multipleId [⟨"struct", "missing::X"⟩]⟩)] }

/-- The document holding `danglingParent`, with an empty included
collection. -/
def danglingDoc : Document :=
  { data := some (.single danglingParent), included := some [] }

/-- The context `generate_context` produces for `danglingParent`. -/
def danglingCtx : Context :=
  { type_ := "module", name := "m", docs := none, sections := some [("items", [])] }

/-- The context `generate_context` produces for `moduleRes` (no
relationships). -/
def moduleCtx : Context :=
  { type_ := "module", name := "test_crate::test_module", docs := none, sections := none }

/-- Splitting never yields an empty piece list. -/
theorem splitCC_ne_nil (l : List Char) : splitCC l ≠ [] := by
  match l with
  | [] => simp [splitCC]
  | [c] => simp [splitCC]
  | c₁ :: c₂ :: rest =>
    rw [splitCC]
    split
    · simp
    · cases h : splitCC (c₂ :: rest) with
      | nil => exact absurd h (splitCC_ne_nil _)
      | cons s ss => simp [List.modifyHead]

/-- Splitting at `/` never yields an empty piece list. -/
theorem splitSlash_ne_nil (l : List Char) : splitSlash l ≠ [] := by
  match l with
  | [] => simp [splitSlash]
  | c :: rest =>
    rw [splitSlash]
    split
    · simp
    · cases h : splitSlash rest with
      | nil => exact absurd h (splitSlash_ne_nil _)
      | cons s ss => simp [List.modifyHead]

/-- Unfolding the join of a cons with a nonempty tail. -/
theorem joinC_cons_of_ne_nil (sep : List Char) (x : List Char) (xs : List (List Char))
    (h : xs ≠ []) : joinC sep (x :: xs) = x ++ sep ++ joinC sep xs := by
  cases xs with
  | nil => exact absurd rfl h
  | cons y ys => rfl

/-- Joining after splitting recovers the original list, for the `::` separator. -/
theorem joinC_splitCC (l : List Char) : joinC [':', ':'] (splitCC l) = l := by
  match l with
  | [] => rfl
  | [c] => rfl
  | c₁ :: c₂ :: rest =>
    rw [splitCC]
    split
    · rename_i hcc
      obtain ⟨h₁, h₂⟩ := hcc
      rw [joinC_cons_of_ne_nil _ _ _ (splitCC_ne_nil rest), joinC_splitCC rest]
      simp [h₁, h₂]
    · cases h : splitCC (c₂ :: rest) with
      | nil => exact absurd h (splitCC_ne_nil _)
      | cons s ss =>
        have ih : joinC [':', ':'] (splitCC (c₂ :: rest)) = c₂ :: rest :=
          joinC_splitCC (c₂ :: rest)
        rw [h] at ih
        simp only [List.modifyHead]
        cases ss with
        | nil => simpa [joinC] using congrArg (c₁ :: ·) ih
        | cons t ts =>
          rw [joinC_cons_of_ne_nil _ _ _ (by simp)] at ih ⊢
          simpa using congrArg (c₁ :: ·) ih

/-- Joining after splitting recovers the original list, for the `/` separator. -/
theorem joinC_splitSlash (l : List Char) : joinC ['/'] (splitSlash l) = l := by
  match l with
  | [] => rfl
  | c :: rest =>
    rw [splitSlash]
    split
    · rename_i hc
      rw [joinC_cons_of_ne_nil _ _ _ (splitSlash_ne_nil rest), joinC_splitSlash rest]
      simp [hc]
    · cases h : splitSlash rest with
      | nil => exact absurd h (splitSlash_ne_nil _)
      | cons s ss =>
        have ih : joinC ['/'] (splitSlash rest) = rest := joinC_splitSlash rest
        rw [h] at ih
        simp only [List.modifyHead]
        cases ss with
        | nil => simpa [joinC] using congrArg (c :: ·) ih
        | cons t ts =>
          rw [joinC_cons_of_ne_nil _ _ _ (by simp)] at ih ⊢
          simpa using congrArg (c :: ·) ih

/-- Splitting a slash-free piece at `/` leaves it whole. -/
theorem splitSlash_of_not_mem {x : List Char} (h : '/' ∉ x) : splitSlash x = [x] := by
  match x with
  | [] => rfl
  | c :: rest =>
    rw [splitSlash, if_neg (by intro hc; exact h (hc ▸ List.mem_cons_self c rest))]
    rw [splitSlash_of_not_mem (fun hm => h (List.mem_cons_of_mem c hm))]
    simp [List.modifyHead]

/-- Splitting `x ++ '/' :: t` at `/` when `x` is slash-free peels off `x`. -/
theorem splitSlash_append {x : List Char} (t : List Char) (h : '/' ∉ x) :
    splitSlash (x ++ '/' :: t) = x :: splitSlash t := by
  match x with
  | [] => simp [splitSlash]
  | c :: rest =>
    have hc : c ≠ '/' := fun hc => h (hc ▸ List.mem_cons_self c rest)
    rw [List.cons_append, splitSlash, if_neg hc,
      splitSlash_append t (fun hm => h (List.mem_cons_of_mem c hm))]
    simp [List.modifyHead]

/-- Splitting after joining recovers the pieces, for nonempty lists of
slash-free pieces. -/
theorem splitSlash_joinC (xs : List (List Char)) (hne : xs ≠ [])
    (hfree : ∀ x ∈ xs, '/' ∉ x) : splitSlash (joinC ['/'] xs) = xs := by
  match xs with
  | [] => exact absurd rfl hne
  | [x] => exact splitSlash_of_not_mem (hfree x (by simp))
  | x :: y :: ys =>
    rw [joinC_cons_of_ne_nil _ _ _ (by simp)]
    have : x ++ ['/'] ++ joinC ['/'] (y :: ys) = x ++ '/' :: joinC ['/'] (y :: ys) := by
      simp
    rw [this, splitSlash_append _ (hfree x (by simp)),
      splitSlash_joinC (y :: ys) (by simp) (fun z hz => hfree z (by simp [hz]))]

/-- Appending strings appends their data. -/
theorem string_data_append (s t : String) : (s ++ t).data = s.data ++ t.data := by
  cases s; cases t; rfl

/-- Rebuilding a string from its data is the identity. -/
theorem string_mk_data (s : String) : String.mk s.data = s := rfl

/-- Strings with equal data are equal. -/
theorem string_data_inj {s t : String} (h : s.data = t.data) : s = t := by
  cases s; cases t; exact congrArg String.mk h

/-- Data of a slash-join, as a character-level join. -/
theorem joinSlash_data (ps : List String) :
    (joinSlash ps).data = joinC ['/'] (ps.map String.data) := by
  match ps with
  | [] => rfl
  | [p] => rfl
  | p :: q :: rest =>
    have ih := joinSlash_data (q :: rest)
    show (p ++ "/" ++ joinSlash (q :: rest)).data = _
    rw [List.map_cons, joinC_cons_of_ne_nil _ _ _ (by simp), string_data_append,
      string_data_append, ih]

/-- Splitting a string on `::` never yields an empty list. -/
theorem strSplitCC_ne_nil (s : String) : strSplitCC s ≠ [] := by
  unfold strSplitCC
  simpa using splitCC_ne_nil s.data

/-- Distinct strings split into distinct piece lists (because joining with
the separator recovers the original string). -/
theorem strSplitCC_inj {s t : String} (h : strSplitCC s = strSplitCC t) : s = t := by
  apply string_data_inj
  have hd : splitCC s.data = splitCC t.data := by
    have h2 := congrArg (List.map String.data) h
    simp only [strSplitCC, List.map_map] at h2
    have e : (String.data ∘ String.mk) = (id : List Char → List Char) := funext fun _ => rfl
    rwa [e, List.map_id, List.map_id] at h2
  calc s.data = joinC [':', ':'] (splitCC s.data) := (joinC_splitCC s.data).symm
    _ = joinC [':', ':'] (splitCC t.data) := by rw [hd]
    _ = t.data := joinC_splitCC t.data

example : pushPath "a" "b" = "a/b" := rfl

example : pushPath "" "b" = "b" := rfl

example : pushPath "a" "" = "a/" := rfl

example : pushPath "a/" "index.html" = "a/index.html" := rfl

example : pushPath "a" "/b" = "/b" := rfl

example : collectPath ["a", "b"] = "a/b" := rfl

example : componentsOf "a/b/index.html" =
    [PComp.normal "a", PComp.normal "b", PComp.normal "index.html"] := rfl

example : componentsOf "./a" = [PComp.curDir, PComp.normal "a"] := rfl

example : componentsOf "a//b/./c" = [PComp.normal "a", PComp.normal "b", PComp.normal "c"] := rfl

example : componentsOf "/a" = [PComp.rootDir, PComp.normal "a"] := rfl

example : componentsOf "../x" = [PComp.parentDir, PComp.normal "x"] := rfl

example : fileName "a/struct.b.html" = some "struct.b.html" := rfl

example : fileName "a/.." = none := rfl

example : parentPath "a/b/index.html" = some "a/b" := rfl

example : parentPath "struct.b.html" = some "" := rfl

example : parentPath "" = none := rfl

example : strSplitCC "test_crate::test_module" = ["test_crate", "test_module"] := rfl

example : strSplitCC "a::" = ["a", ""] := rfl

example : strSplitCC "a:::b" = ["a", ":b"] := rfl

example : pathForResource { type_ := "module", id := "test_crate::test_module" } =
    .ok "test_crate/test_module/index.html" := rfl

example : pathForResource { type_ := "struct", id := "test_crate::TestStruct" } =
    .ok "test_crate/struct.TestStruct.html" := rfl

example : pathForResource { type_ := "enum", id := "test_crate::E" } =
    .error .notImplemented := rfl

example : pathForResource { type_ := "struct", id := "a::.." } = .error .unwrapNone := rfl

example : pathForResource { type_ := "module", id := "a" } = .ok "a/index.html" := rfl

example : pathForResource { type_ := "module", id := "a::" } = .ok "a/index.html" := rfl

example : linkFor { type_ := "module", id := "test_crate::test_module" }
    { type_ := "struct", id := "test_crate::test_module::TestStruct" } =
    .ok "struct.TestStruct.html" := rfl

example : linkFor { type_ := "struct", id := "test_crate::a::S" }
    { type_ := "module", id := "test_crate::b" } = .ok "../b/index.html" := rfl

example : linkFor { type_ := "module", id := "..::x" } { type_ := "module", id := "y" } =
    .error .unwrapNone := rfl

/-- Propositional form of `plainSeg`. -/
theorem plainSeg_iff {s : String} :
    plainSeg s = true ↔ s ≠ "" ∧ '/' ∉ s.data ∧ s ≠ "." ∧ s ≠ ".." := by
  simp [plainSeg, and_assoc]

/-- A string with nonempty data is nonempty. -/
theorem ne_empty_of_data_ne_nil {s : String} (h : s.data ≠ []) : s ≠ "" := by
  intro he
  exact h (by rw [he])

/-- A nonempty string has nonempty data. -/
theorem data_ne_nil_of_ne_empty {s : String} (h : s ≠ "") : s.data ≠ [] := by
  intro he
  exact h (string_data_inj (by rw [he]))

/-- A slash-free string does not start with `/`. -/
theorem head?_ne_slash {s : String} (h : '/' ∉ s.data) : s.data.head? ≠ some '/' := by
  intro hc
  apply h
  cases hd : s.data with
  | nil => rw [hd] at hc; simp at hc
  | cons c rest =>
    rw [hd] at hc
    simp only [List.head?_cons, Option.some.injEq] at hc
    exact List.mem_cons.mpr (Or.inl hc.symm)

/-- The head of a join is the head of its first (nonempty) piece. -/
theorem joinC_head (sep x : List Char) (xs : List (List Char)) (hx : x ≠ []) :
    (joinC sep (x :: xs)).head? = x.head? := by
  cases xs with
  | nil => rfl
  | cons y ys =>
    rw [joinC_cons_of_ne_nil _ _ _ (by simp), List.append_assoc]
    exact List.head?_append_of_ne_nil _ hx

/-- The last character of a join is the last character of its last
(nonempty) piece. -/
theorem joinC_getLastP (sep : List Char) {xs : List (List Char)} {x : List Char}
    (hx : xs.getLast? = some x) (hxne : x ≠ []) :
    (joinC sep xs).getLast? = x.getLast? := by
  match xs with
  | [] => simp at hx
  | [x'] =>
    simp only [List.getLast?_singleton, Option.some.injEq] at hx
    subst hx; rfl
  | x' :: y :: ys =>
    have hx' : (y :: ys).getLast? = some x := by
      simpa [List.getLast?_cons_cons] using hx
    have ih := joinC_getLastP sep hx' hxne
    have hsome : ∃ v, x.getLast? = some v := by
      cases x with
      | nil => exact absurd rfl hxne
      | cons c cs => exact ⟨(c :: cs).getLast (by simp), List.getLast?_eq_getLast _ _⟩
    obtain ⟨v, hv⟩ := hsome
    rw [joinC_cons_of_ne_nil _ _ _ (by simp), List.append_assoc, List.getLast?_append,
      List.getLast?_append, ih, hv]
    rfl

/-- The data of a slash-join of pieces with a nonempty head is nonempty. -/
theorem joinSlash_data_ne_nil {p : String} (rest : List String) (hp : p.data ≠ []) :
    (joinSlash (p :: rest)).data ≠ [] := by
  rw [joinSlash_data]
  intro h
  have := joinC_head ['/'] p.data (rest.map String.data) hp
  rw [List.map_cons] at h
  rw [h] at this
  simp only [List.head?_nil] at this
  cases hd : p.data with
  | nil => exact hp hd
  | cons c cs => rw [hd] at this; simp at this

/-- A slash-join of slash-free nonempty pieces does not start with `/`. -/
theorem joinSlash_head_ne_slash {ps : List String}
    (h : ∀ p ∈ ps, p ≠ "" ∧ '/' ∉ p.data) :
    (joinSlash ps).data.head? ≠ some '/' := by
  cases ps with
  | nil => simp [joinSlash]
  | cons p rest =>
    obtain ⟨hp, hpf⟩ := h p (List.mem_cons_self _ _)
    rw [joinSlash_data, List.map_cons,
      joinC_head ['/'] p.data (rest.map String.data) (data_ne_nil_of_ne_empty hp)]
    exact head?_ne_slash hpf

/-- A slash-join of slash-free nonempty pieces does not end with `/`. -/
theorem joinSlash_getLast_ne_slash {ps : List String} (hne : ps ≠ [])
    (h : ∀ p ∈ ps, p ≠ "" ∧ '/' ∉ p.data) :
    (joinSlash ps).data.getLast? ≠ some '/' := by
  obtain ⟨q, hq⟩ : ∃ q, ps.getLast? = some q := by
    cases ps with
    | nil => exact absurd rfl hne
    | cons p rest => exact ⟨_, List.getLast?_eq_getLast _ (by simp)⟩
  have hqmem : q ∈ ps := List.mem_of_getLast?_eq_some hq
  obtain ⟨hqne, hqf⟩ := h q hqmem
  rw [joinSlash_data]
  have hmap : (ps.map String.data).getLast? = some q.data := by
    rw [List.getLast?_map, hq]; rfl
  rw [joinC_getLastP ['/'] hmap (data_ne_nil_of_ne_empty hqne)]
  intro hsl
  exact hqf (List.mem_of_getLast?_eq_some hsl)

/-- Classification of pieces that are nonempty and not `.`: `..` becomes a
parent component, anything else a normal component. -/
theorem filterMap_classify {l : List String} (h : ∀ p ∈ l, p ≠ "" ∧ p ≠ ".") :
    l.filterMap classifyPiece =
      l.map (fun p => if p = ".." then PComp.parentDir else PComp.normal p) := by
  induction l with
  | nil => rfl
  | cons p rest ih =>
    obtain ⟨hne, hdot⟩ := h p (List.mem_cons_self _ _)
    rw [List.filterMap_cons, List.map_cons]
    have : classifyPiece p = some (if p = ".." then PComp.parentDir else PComp.normal p) := by
      unfold classifyPiece
      rw [if_neg hne, if_neg hdot]
      split <;> simp_all
    rw [this, ih (fun q hq => h q (List.mem_cons_of_mem _ hq))]

/-- The components of a slash-join of nonempty, slash-free, non-`.` pieces:
each piece in order, `..` pieces as parent components. -/
theorem componentsOf_joinSlash {ps : List String} (hne : ps ≠ [])
    (h : ∀ p ∈ ps, p ≠ "" ∧ '/' ∉ p.data ∧ p ≠ ".") :
    componentsOf (joinSlash ps) =
      ps.map (fun p => if p = ".." then PComp.parentDir else PComp.normal p) := by
  obtain ⟨p, rest, rfl⟩ : ∃ p rest, ps = p :: rest := by
    cases ps with
    | nil => exact absurd rfl hne
    | cons p rest => exact ⟨p, rest, rfl⟩
  have hp := h p (List.mem_cons_self _ _)
  have hjne : (joinSlash (p :: rest)).data ≠ [] :=
    joinSlash_data_ne_nil rest (data_ne_nil_of_ne_empty hp.1)
  have hhead : (joinSlash (p :: rest)).data.head? ≠ some '/' :=
    joinSlash_head_ne_slash (fun q hq => ⟨(h q hq).1, (h q hq).2.1⟩)
  have hsplit : (splitSlash (joinSlash (p :: rest)).data).map String.mk = p :: rest := by
    rw [joinSlash_data, splitSlash_joinC ((p :: rest).map String.data) (by simp)
      (by intro x hx
          obtain ⟨q, hq, rfl⟩ := List.mem_map.mp hx
          exact (h q hq).2.1)]
    rw [List.map_map]
    have e : (String.mk ∘ String.data) = (id : String → String) := funext fun s => string_mk_data s
    rw [e, List.map_id]
  unfold componentsOf
  rw [if_neg hjne, if_neg hhead, hsplit]
  have hpdot : p ≠ "." := hp.2.2
  rw [if_neg (by simpa using hpdot)]
  exact filterMap_classify (fun q hq => ⟨(h q hq).1, (h q hq).2.2⟩)

/-- When no piece is `..` either, every component is normal. -/
theorem componentsOf_joinSlash_plain {ps : List String} (hne : ps ≠ [])
    (h : ∀ p ∈ ps, plainSeg p = true) :
    componentsOf (joinSlash ps) = ps.map PComp.normal := by
  rw [componentsOf_joinSlash hne (fun q hq => by
    obtain ⟨h1, h2, h3, _⟩ := plainSeg_iff.mp (h q hq)
    exact ⟨h1, h2, h3⟩)]
  apply List.map_congr_left
  intro q hq
  obtain ⟨_, _, _, h4⟩ := plainSeg_iff.mp (h q hq)
  rw [if_neg h4]

/-- String concatenation is associative. -/
theorem string_append_assoc (a b c : String) : a ++ b ++ c = a ++ (b ++ c) := by
  apply string_data_inj
  simp [string_data_append, List.append_assoc]

/-- Appending one more piece to a nonempty slash-join. -/
theorem joinSlash_append_single (f : String) (ps : List String) (hne : ps ≠ []) :
    joinSlash (ps ++ [f]) = joinSlash ps ++ "/" ++ f := by
  match ps with
  | [p] => rfl
  | p :: q :: rest =>
    have ih := joinSlash_append_single f (q :: rest) (by simp)
    rw [List.cons_append] at ih
    show p ++ "/" ++ joinSlash (q :: (rest ++ [f])) = p ++ "/" ++ joinSlash (q :: rest) ++ "/" ++ f
    rw [ih]
    apply string_data_inj
    simp [string_data_append, List.append_assoc]

/-- Pushing a non-absolute piece onto a slash-join of slash-free nonempty
pieces appends the piece. -/
theorem pushPath_joinSlash {ps : List String} (f : String)
    (h : ∀ p ∈ ps, p ≠ "" ∧ '/' ∉ p.data) (hf : f.data.head? ≠ some '/') :
    pushPath (joinSlash ps) f = joinSlash (ps ++ [f]) := by
  cases ps with
  | nil =>
    unfold pushPath
    rw [if_neg hf, if_pos (show (joinSlash []).data = [] from rfl)]
    rfl
  | cons p rest =>
    have hp := h p (List.mem_cons_self _ _)
    have hjne := joinSlash_data_ne_nil rest (data_ne_nil_of_ne_empty hp.1)
    unfold pushPath
    rw [if_neg hf, if_neg hjne, if_neg (joinSlash_getLast_ne_slash (by simp) h),
      joinSlash_append_single f (p :: rest) (by simp)]

/-- Collecting slash-free nonempty pieces into a `PathBuf` is exactly the
slash-join. -/
theorem collectPath_eq_joinSlash {ps : List String}
    (h : ∀ p ∈ ps, p ≠ "" ∧ '/' ∉ p.data) : collectPath ps = joinSlash ps := by
  have main : ∀ (qs prev : List String), prev ≠ [] →
      (∀ p ∈ prev, p ≠ "" ∧ '/' ∉ p.data) → (∀ p ∈ qs, p ≠ "" ∧ '/' ∉ p.data) →
      qs.foldl pushPath (joinSlash prev) = joinSlash (prev ++ qs) := by
    intro qs
    induction qs with
    | nil => intro prev _ _ _; simp [List.foldl_nil]
    | cons q qs ih =>
      intro prev hprev hprevh hqh
      rw [List.foldl_cons,
        pushPath_joinSlash q hprevh (head?_ne_slash (hqh q (List.mem_cons_self _ _)).2)]
      rw [ih (prev ++ [q]) (by simp)
        (by intro x hx
            rcases List.mem_append.mp hx with hx | hx
            · exact hprevh x hx
            · rw [List.mem_singleton] at hx
              subst hx
              exact hqh x (List.mem_cons_self _ _))
        (fun x hx => hqh x (List.mem_cons_of_mem _ hx))]
      simp
  cases ps with
  | nil => rfl
  | cons p rest =>
    have hp := h p (List.mem_cons_self _ _)
    unfold collectPath
    rw [List.foldl_cons]
    have hstep : pushPath "" p = p := by
      unfold pushPath
      rw [if_neg (head?_ne_slash hp.2), if_pos rfl]
    rw [hstep]
    have hsingle : p = joinSlash [p] := rfl
    rw [hsingle, main rest [p] (by simp)
      (by intro x hx; rw [List.mem_singleton] at hx; subst hx; exact hp)
      (fun x hx => h x (List.mem_cons_of_mem _ hx))]
    rfl

/-- Segments of a well-formed identifier are plain. -/
theorem wf_mem {id : String} (hw : wfId id = true) {p : String} (hp : p ∈ strSplitCC id) :
    p ≠ "" ∧ '/' ∉ p.data ∧ p ≠ "." ∧ p ≠ ".." :=
  plainSeg_iff.mp (List.all_eq_true.mp hw p hp)

/-- A nonempty list has a last element. -/
theorem getLast?_of_ne_nil {α : Type _} {l : List α} (h : l ≠ []) :
    ∃ a, l.getLast? = some a :=
  ⟨l.getLast h, List.getLast?_eq_getLast _ _⟩

/-- Data decomposition of the synthesized struct file name. -/
theorem structFile_data (l : String) :
    ("struct." ++ l ++ ".html").data = "struct.".data ++ (l.data ++ ".html".data) := by
  rw [string_data_append, string_data_append, List.append_assoc]

/-- The synthesized struct file name starts with `s`. -/
theorem structFile_head (l : String) :
    ("struct." ++ l ++ ".html").data.head? = some 's' := by
  rw [structFile_data, List.head?_append_of_ne_nil _ (by decide)]
  decide

/-- The synthesized struct file name is slash-free when the short name is. -/
theorem structFile_not_slash {l : String} (hl : '/' ∉ l.data) :
    '/' ∉ ("struct." ++ l ++ ".html").data := by
  rw [structFile_data]
  intro hm
  rcases List.mem_append.mp hm with hm | hm
  · exact absurd hm (by decide)
  · rcases List.mem_append.mp hm with hm | hm
    · exact hl hm
    · exact absurd hm (by decide)

/-- Strings with different first characters differ. -/
theorem ne_of_head_ne {s t : String} (h : s.data.head? ≠ t.data.head?) : s ≠ t := by
  intro he
  exact h (by rw [he])

/-- The synthesized struct file name is nonempty. -/
theorem structFile_ne_empty (l : String) : ("struct." ++ l ++ ".html") ≠ "" :=
  ne_of_head_ne (by rw [structFile_head]; decide)

/-- The synthesized struct file name is not `.`. -/
theorem structFile_ne_dot (l : String) : ("struct." ++ l ++ ".html") ≠ "." :=
  ne_of_head_ne (by rw [structFile_head]; decide)

/-- The synthesized struct file name is not `..`. -/
theorem structFile_ne_dotdot (l : String) : ("struct." ++ l ++ ".html") ≠ ".." :=
  ne_of_head_ne (by rw [structFile_head]; decide)

/-- The synthesized struct file name differs from `index.html`. -/
theorem structFile_ne_index (l : String) : ("struct." ++ l ++ ".html") ≠ "index.html" :=
  ne_of_head_ne (by rw [structFile_head]; decide)

/-- The synthesized struct file name determines the short name. -/
theorem structFile_inj {l₁ l₂ : String}
    (h : ("struct." ++ l₁ ++ ".html") = ("struct." ++ l₂ ++ ".html")) : l₁ = l₂ := by
  have hd := congrArg String.data h
  rw [structFile_data, structFile_data] at hd
  exact string_data_inj (List.append_cancel_right (List.append_cancel_left hd))

/-- On a slash-join of plain pieces, `file_name` is the last piece. -/
theorem fileName_joinSlash_plain {ps : List String} (hne : ps ≠ [])
    (h : ∀ p ∈ ps, plainSeg p = true) {q : String} (hq : ps.getLast? = some q) :
    fileName (joinSlash ps) = some q := by
  unfold fileName
  rw [componentsOf_joinSlash_plain hne h, List.getLast?_map, hq]
  rfl

/-- On a slash-join of plain pieces, `parent` drops the last piece. -/
theorem parentPath_joinSlash_plain {ps : List String} (hne : ps ≠ [])
    (h : ∀ p ∈ ps, plainSeg p = true) :
    parentPath (joinSlash ps) = some (joinSlash ps.dropLast) := by
  unfold parentPath
  rw [componentsOf_joinSlash_plain hne h]
  rw [if_neg (by
    push_neg
    constructor
    · simpa using hne
    · cases ps with
      | nil => exact absurd rfl hne
      | cons p rest =>
        rw [List.map_cons]
        intro hcontra
        rw [List.cons.injEq] at hcontra
        exact PComp.noConfusion hcontra.1)]
  rw [← List.map_dropLast, List.map_map]
  have e : (compToStr ∘ PComp.normal) = (id : String → String) := funext fun _ => rfl
  rw [e, List.map_id]
  rw [collectPath_eq_joinSlash (fun p hp => by
    have hm : p ∈ ps := List.Sublist.mem hp (List.dropLast_sublist ps)
    obtain ⟨h1, h2, _, _⟩ := plainSeg_iff.mp (h p hm)
    exact ⟨h1, h2⟩)]

/-- Characterization of the derived path of a `module`/`crate` resource with
a well-formed identifier. -/
theorem pathForResource_module {r : Resource} (hw : wfId r.id = true)
    (hk : r.type_ = "module" ∨ r.type_ = "crate") :
    pathForResource r = .ok (joinSlash (strSplitCC r.id ++ ["index.html"])) := by
  have hplain : ∀ p ∈ strSplitCC r.id, p ≠ "" ∧ '/' ∉ p.data := fun p hp =>
    ⟨(wf_mem hw hp).1, (wf_mem hw hp).2.1⟩
  unfold pathForResource
  rw [if_pos hk, collectPath_eq_joinSlash hplain,
    pushPath_joinSlash _ hplain (by decide)]

/-- Characterization of the derived path of a `struct` resource with a
well-formed identifier. -/
theorem pathForResource_struct {r : Resource} (hw : wfId r.id = true)
    (hk : r.type_ = "struct") :
    pathForResource r = .ok (joinSlash ((strSplitCC r.id).dropLast ++
      ["struct." ++ lastSegment r.id ++ ".html"])) := by
  have hplain : ∀ p ∈ strSplitCC r.id, p ≠ "" ∧ '/' ∉ p.data := fun p hp =>
    ⟨(wf_mem hw hp).1, (wf_mem hw hp).2.1⟩
  have hplain' : ∀ p ∈ strSplitCC r.id, plainSeg p = true := fun p hp =>
    List.all_eq_true.mp hw p hp
  obtain ⟨q, hq⟩ := getLast?_of_ne_nil (strSplitCC_ne_nil r.id)
  have hlastseg : lastSegment r.id = q := by
    unfold lastSegment
    rw [hq]
    rfl
  unfold pathForResource
  rw [if_neg (by rw [hk]; decide), if_pos hk, collectPath_eq_joinSlash hplain,
    fileName_joinSlash_plain (strSplitCC_ne_nil r.id) hplain' hq,
    parentPath_joinSlash_plain (strSplitCC_ne_nil r.id) hplain']
  rw [hlastseg]
  show Except.ok (pushPath (joinSlash (strSplitCC r.id).dropLast) ("struct." ++ q ++ ".html")) = _
  rw [pushPath_joinSlash _ (fun p hp => by
      have hm : p ∈ strSplitCC r.id := List.Sublist.mem hp (List.dropLast_sublist _)
      exact hplain p hm)
    (by rw [structFile_head]; decide)]

/-- Path derivation succeeds only for the kinds `module`, `crate`, `struct`. -/
theorem pathForResource_ok_kinds {r : Resource} {p : String}
    (h : pathForResource r = .ok p) :
    (r.type_ = "module" ∨ r.type_ = "crate") ∨ r.type_ = "struct" := by
  by_contra hcon
  push_neg at hcon
  obtain ⟨⟨h1, h2⟩, h3⟩ := hcon
  unfold pathForResource at h
  rw [if_neg (not_or.mpr ⟨h1, h2⟩), if_neg h3] at h
  exact Except.noConfusion h

/-- Slash-joins of slash-free pieces are injective on nonempty piece lists. -/
theorem joinSlash_inj {ps qs : List String} (hps : ps ≠ []) (hqs : qs ≠ [])
    (hfp : ∀ p ∈ ps, '/' ∉ p.data) (hfq : ∀ p ∈ qs, '/' ∉ p.data)
    (h : joinSlash ps = joinSlash qs) : ps = qs := by
  have hd := congrArg String.data h
  rw [joinSlash_data, joinSlash_data] at hd
  have h1 := splitSlash_joinC (ps.map String.data) (by simpa using hps)
    (by intro x hx
        obtain ⟨q, hq, rfl⟩ := List.mem_map.mp hx
        exact hfp q hq)
  have h2 := splitSlash_joinC (qs.map String.data) (by simpa using hqs)
    (by intro x hx
        obtain ⟨q, hq, rfl⟩ := List.mem_map.mp hx
        exact hfq q hq)
  have hmap : ps.map String.data = qs.map String.data := by rw [← h1, ← h2, hd]
  have hmk := congrArg (List.map String.mk) hmap
  rw [List.map_map, List.map_map] at hmk
  have e : (String.mk ∘ String.data) = (id : String → String) := funext string_mk_data
  rwa [e, List.map_id, List.map_id] at hmk

theorem append_single_eq {α : Type _} {l₁ l₂ : List α} {x y : α}
    (h : l₁ ++ [x] = l₂ ++ [y]) : l₁ = l₂ ∧ x = y := by
  have hx : x = y := by
    have hg := congrArg List.getLast? h
    rw [List.getLast?_concat, List.getLast?_concat] at hg
    exact Option.some.inj hg
  subst hx
  exact ⟨List.append_cancel_right h, rfl⟩

/-- An identifier's segments are the dropped-last segments plus the last
segment. -/
theorem segs_eq_dropLast_append_last (id : String) :
    strSplitCC id = (strSplitCC id).dropLast ++ [lastSegment id] := by
  obtain ⟨q, hq⟩ := getLast?_of_ne_nil (strSplitCC_ne_nil id)
  have hl : lastSegment id = q := by
    unfold lastSegment
    rw [hq]
    rfl
  rw [hl]
  exact (List.dropLast_append_getLast? q (Option.mem_def.mpr hq)).symm

/-- The piece list of a module/crate path is slash-free. -/
theorem modulePieces_slashFree {id : String} (hw : wfId id = true) :
    ∀ p ∈ strSplitCC id ++ ["index.html"], '/' ∉ p.data := by
  intro p hp
  rcases List.mem_append.mp hp with hp | hp
  · exact (wf_mem hw hp).2.1
  · rw [List.mem_singleton] at hp
    subst hp
    decide

/-- The piece list of a struct path is slash-free. -/
theorem structPieces_slashFree {id : String} (hw : wfId id = true) :
    ∀ p ∈ (strSplitCC id).dropLast ++ ["struct." ++ lastSegment id ++ ".html"],
      '/' ∉ p.data := by
  intro p hp
  rcases List.mem_append.mp hp with hp | hp
  · exact (wf_mem hw (List.Sublist.mem hp (List.dropLast_sublist _))).2.1
  · rw [List.mem_singleton] at hp
    subst hp
    apply structFile_not_slash
    obtain ⟨q, hq⟩ := getLast?_of_ne_nil (strSplitCC_ne_nil id)
    have hl : lastSegment id = q := by
      unfold lastSegment
      rw [hq]
      rfl
    rw [hl]
    exact (wf_mem hw (List.mem_of_getLast?_eq_some hq)).2.1

/-- The last segment is one of the segments. -/
theorem lastSegment_mem (id : String) : lastSegment id ∈ strSplitCC id := by
  obtain ⟨q, hq⟩ := getLast?_of_ne_nil (strSplitCC_ne_nil id)
  have hl : lastSegment id = q := by
    unfold lastSegment
    rw [hq]
    rfl
  rw [hl]
  exact List.mem_of_getLast?_eq_some hq

/-- Core injectivity: on well-formed identifiers, distinct identifiers of
supported kinds derive distinct paths. -/
theorem pathForResource_inj (a b : Resource) {pa pb : String}
    (hwa : wfId a.id = true) (hwb : wfId b.id = true) (hne : a.id ≠ b.id)
    (hpa : pathForResource a = .ok pa) (hpb : pathForResource b = .ok pb) :
    pa ≠ pb := by
  intro heq
  apply hne
  rcases pathForResource_ok_kinds hpa with hka | hka <;>
    rcases pathForResource_ok_kinds hpb with hkb | hkb
  · -- both module/crate
    rw [pathForResource_module hwa hka] at hpa
    rw [pathForResource_module hwb hkb] at hpb
    have ha := Except.ok.inj hpa
    have hb := Except.ok.inj hpb
    rw [← ha, ← hb] at heq
    have hlists := joinSlash_inj (by simp) (by simp)
      (modulePieces_slashFree hwa) (modulePieces_slashFree hwb) heq
    exact strSplitCC_inj (List.append_cancel_right hlists)
  · -- a module/crate, b struct
    rw [pathForResource_module hwa hka] at hpa
    rw [pathForResource_struct hwb hkb] at hpb
    have ha := Except.ok.inj hpa
    have hb := Except.ok.inj hpb
    rw [← ha, ← hb] at heq
    have hlists := joinSlash_inj (by simp) (by simp)
      (modulePieces_slashFree hwa) (structPieces_slashFree hwb) heq
    exact absurd (append_single_eq hlists).2.symm (structFile_ne_index _)
  · -- a struct, b module/crate
    rw [pathForResource_struct hwa hka] at hpa
    rw [pathForResource_module hwb hkb] at hpb
    have ha := Except.ok.inj hpa
    have hb := Except.ok.inj hpb
    rw [← ha, ← hb] at heq
    have hlists := joinSlash_inj (by simp) (by simp)
      (structPieces_slashFree hwa) (modulePieces_slashFree hwb) heq
    exact absurd (append_single_eq hlists).2 (structFile_ne_index _)
  · -- both struct
    rw [pathForResource_struct hwa hka] at hpa
    rw [pathForResource_struct hwb hkb] at hpb
    have ha := Except.ok.inj hpa
    have hb := Except.ok.inj hpb
    rw [← ha, ← hb] at heq
    have hlists := joinSlash_inj (by simp) (by simp)
      (structPieces_slashFree hwa) (structPieces_slashFree hwb) heq
    obtain ⟨hinit, hfile⟩ := append_single_eq hlists
    have hlast : lastSegment a.id = lastSegment b.id := structFile_inj hfile
    have : strSplitCC a.id = strSplitCC b.id := by
      rw [segs_eq_dropLast_append_last a.id, segs_eq_dropLast_append_last b.id,
        hinit, hlast]
    exact strSplitCC_inj this

/-- The common prefix with an empty first list is empty. -/
theorem commonLen_nil_left (b : List PComp) : commonLen [] b = 0 := by
  cases b <;> rfl

/-- The common prefix with an empty second list is empty. -/
theorem commonLen_nil_right (a : List PComp) : commonLen a [] = 0 := by
  cases a <;> rfl

/-- Unfolding the common prefix length on two conses. -/
theorem commonLen_cons (x y : PComp) (xs ys : List PComp) :
    commonLen (x :: xs) (y :: ys) =
      if x = y then commonLen xs ys + 1 else 0 := rfl

/-- The common prefix is no longer than the second list. -/
theorem commonLen_le_right (a b : List PComp) : commonLen a b ≤ b.length := by
  induction a generalizing b with
  | nil => rw [commonLen_nil_left]; exact Nat.zero_le _
  | cons x xs ih =>
    cases b with
    | nil => rw [commonLen_nil_right]; exact Nat.zero_le _
    | cons y ys =>
      rw [commonLen_cons]
      split
      · simpa [List.length_cons] using Nat.succ_le_succ (ih ys)
      · exact Nat.zero_le _

/-- Both lists agree on their common prefix. -/
theorem take_commonLen (a b : List PComp) :
    a.take (commonLen a b) = b.take (commonLen a b) := by
  induction a generalizing b with
  | nil => rw [commonLen_nil_left]; rfl
  | cons x xs ih =>
    cases b with
    | nil => rw [commonLen_nil_right]; rfl
    | cons y ys =>
      rw [commonLen_cons]
      split
      · rename_i hxy
        subst hxy
        simp only [List.take_succ_cons]
        rw [ih ys]
      · rfl

/-- Diffing an exhausted path against a remaining base ascends once per
remaining base component. -/
theorem diffAux_nil_path (bs : List PComp) : ∀ acc,
    diffAux acc [] bs = some (acc ++ List.replicate bs.length PComp.parentDir) := by
  induction bs with
  | nil => intro acc; simp [diffAux]
  | cons b bs ih =>
    intro acc
    show diffAux (acc ++ [PComp.parentDir]) [] bs = _
    rw [ih]
    simp [List.replicate_succ]

/-- The `diff_paths` loop on all-normal component lists: ascend past the
non-shared part of the base, then descend into the non-shared part of the
path. -/
theorem diffAux_normal (a : List PComp) : ∀ (b : List PComp),
    (∀ c ∈ a, ∃ s, c = PComp.normal s) → (∀ c ∈ b, ∃ s, c = PComp.normal s) →
    diffAux [] a b = some (List.replicate (b.length - commonLen a b) PComp.parentDir ++
      a.drop (commonLen a b)) := by
  induction a with
  | nil =>
    intro b _ _
    rw [diffAux_nil_path b []]
    rw [commonLen_nil_left]
    simp
  | cons x xs ih =>
    intro b ha hb
    cases b with
    | nil =>
      show some ([] ++ x :: xs) = _
      rw [commonLen_nil_right]
      simp
    | cons y ys =>
      by_cases hxy : x = y
      · subst hxy
        have hstep : diffAux [] (x :: xs) (x :: ys) = diffAux [] xs ys := by
          simp [diffAux]
        rw [hstep, ih ys (fun c hc => ha c (List.mem_cons_of_mem _ hc))
          (fun c hc => hb c (List.mem_cons_of_mem _ hc))]
        rw [commonLen_cons, if_pos rfl]
        simp
      · obtain ⟨s, hy⟩ := hb y (List.mem_cons_self _ _)
        have hycur : y ≠ PComp.curDir := by rw [hy]; exact fun hc => PComp.noConfusion hc
        have hypar : y ≠ PComp.parentDir := by rw [hy]; exact fun hc => PComp.noConfusion hc
        have hstep : diffAux [] (x :: xs) (y :: ys) =
            some ([] ++ PComp.parentDir :: (ys.map fun _ => PComp.parentDir) ++ x :: xs) := by
          simp only [diffAux]
          rw [if_neg (by
              intro hcontra
              exact hxy hcontra.2), if_neg hycur, if_neg hypar]
        rw [hstep, commonLen_cons, if_neg hxy]
        simp [List.map_const', List.replicate_succ]

/-- Resolving a run of parent markers truncates the base. -/
theorem resolveRel_parents (n : Nat) : ∀ (B : List PComp),
    resolveRel B (List.replicate n PComp.parentDir) = B.take (B.length - n) := by
  induction n with
  | zero => intro B; simp [resolveRel]
  | succ n ih =>
    intro B
    show resolveRel B.dropLast (List.replicate n PComp.parentDir) = _
    rw [ih, List.dropLast_eq_take, List.length_take, List.take_take]
    congr 1
    omega

/-- Resolving a run of normal components appends them. -/
theorem resolveRel_append_normals (C : List PComp) :
    ∀ (acc : List PComp), (∀ c ∈ C, ∃ s, c = PComp.normal s) →
    resolveRel acc C = acc ++ C := by
  induction C with
  | nil => intro acc _; simp [resolveRel]
  | cons c cs ih =>
    intro acc hC
    obtain ⟨s, hc⟩ := hC c (List.mem_cons_self _ _)
    subst hc
    show resolveRel (acc ++ [PComp.normal s]) cs = _
    rw [ih (acc ++ [PComp.normal s]) (fun d hd => hC d (List.mem_cons_of_mem _ hd))]
    simp

/-- Resolving an ascend-then-descend relative path. -/
theorem resolveRel_split (B : List PComp) (n : Nat) (C : List PComp)
    (hC : ∀ c ∈ C, ∃ s, c = PComp.normal s) :
    resolveRel B (List.replicate n PComp.parentDir ++ C) =
      B.take (B.length - n) ++ C := by
  unfold resolveRel
  rw [List.foldl_append]
  have h1 := resolveRel_parents n B
  unfold resolveRel at h1
  rw [h1]
  have h2 := resolveRel_append_normals C (B.take (B.length - n)) hC
  unfold resolveRel at h2
  exact h2

/-- End-to-end: resolving the diffed relative path against the base lands on
the original path (all components normal). -/
theorem diff_resolve (a b : List PComp)
    (ha : ∀ c ∈ a, ∃ s, c = PComp.normal s) (hb : ∀ c ∈ b, ∃ s, c = PComp.normal s) :
    ∃ r, diffAux [] a b = some r ∧ resolveRel b r = a := by
  refine ⟨_, diffAux_normal a b ha hb, ?_⟩
  rw [resolveRel_split b (b.length - commonLen a b) (a.drop (commonLen a b))
    (fun c hc => ha c (List.mem_of_mem_drop hc))]
  have hk : commonLen a b ≤ b.length := commonLen_le_right a b
  have : b.length - (b.length - commonLen a b) = commonLen a b := by omega
  rw [this, ← take_commonLen a b, List.take_append_drop]

/-- The empty path has no components. -/
theorem componentsOf_empty : componentsOf "" = [] := rfl

/-- Components of a slash-join of plain pieces, including the empty list. -/
theorem componentsOf_joinSlash_plainAll {ps : List String}
    (h : ∀ p ∈ ps, plainSeg p = true) :
    componentsOf (joinSlash ps) = ps.map PComp.normal := by
  cases ps with
  | nil => rfl
  | cons p rest => exact componentsOf_joinSlash_plain (by simp) h

/-- Constructor form of `plainSeg`. -/
theorem plainSeg_intro {p : String} (h1 : p ≠ "") (h2 : '/' ∉ p.data) (h3 : p ≠ ".")
    (h4 : p ≠ "..") : plainSeg p = true :=
  plainSeg_iff.mpr ⟨h1, h2, h3, h4⟩

/-- Every successfully derived path is a slash-join of nonempty plain
pieces. -/
theorem path_shape {r : Resource} {p : String} (hw : wfId r.id = true)
    (hp : pathForResource r = .ok p) :
    ∃ pieces : List String, pieces ≠ [] ∧ (∀ x ∈ pieces, plainSeg x = true) ∧
      p = joinSlash pieces := by
  rcases pathForResource_ok_kinds hp with hk | hk
  · rw [pathForResource_module hw hk] at hp
    refine ⟨strSplitCC r.id ++ ["index.html"], by simp, ?_, (Except.ok.inj hp).symm⟩
    intro x hx
    rcases List.mem_append.mp hx with hx | hx
    · exact List.all_eq_true.mp hw x hx
    · rw [List.mem_singleton] at hx
      subst hx
      decide
  · rw [pathForResource_struct hw hk] at hp
    refine ⟨_, by simp, ?_, (Except.ok.inj hp).symm⟩
    intro x hx
    rcases List.mem_append.mp hx with hx | hx
    · exact List.all_eq_true.mp hw x (List.Sublist.mem hx (List.dropLast_sublist _))
    · rw [List.mem_singleton] at hx
      subst hx
      have hl := wf_mem hw (lastSegment_mem r.id)
      exact plainSeg_intro (structFile_ne_empty _) (structFile_not_slash hl.2.1)
        (structFile_ne_dot _) (structFile_ne_dotdot _)

/-- A slash-join of plain pieces does not start with `/`. -/
theorem joinSlash_head_ne_slash_plain {ps : List String}
    (h : ∀ p ∈ ps, plainSeg p = true) : (joinSlash ps).data.head? ≠ some '/' :=
  joinSlash_head_ne_slash (fun q hq => by
    obtain ⟨h1, h2, _, _⟩ := plainSeg_iff.mp (h q hq)
    exact ⟨h1, h2⟩)

/-- Evaluation of the link block once its four sub-results are known. -/
theorem linkFor_eval {a b : Resource} {pa folder pb : String} {R : List PComp}
    (hpa : pathForResource a = .ok pa) (hparent : parentPath pa = some folder)
    (hpb : pathForResource b = .ok pb) (hdiff : diffPaths pb folder = some R) :
    linkFor a b = .ok (joinSlash (R.map compToStr)) := by
  unfold linkFor
  simp only [hpa, hparent, hpb, hdiff]

/-- Mapped normal components are normal. -/
theorem normals_of_map {l : List String} :
    ∀ c ∈ l.map PComp.normal, ∃ s, c = PComp.normal s := by
  intro c hc
  obtain ⟨s, _, rfl⟩ := List.mem_map.mp hc
  exact ⟨s, rfl⟩

/-- The components of the link string produced from a diff result of the
shape ascend-then-descend parse back to exactly that component list. -/
theorem componentsOf_link {n : Nat} {cs : List String}
    (hcs : ∀ p ∈ cs, plainSeg p = true) :
    componentsOf (joinSlash ((List.replicate n PComp.parentDir ++
      cs.map PComp.normal).map compToStr)) =
      List.replicate n PComp.parentDir ++ cs.map PComp.normal := by
  have hmapstr : (List.replicate n PComp.parentDir ++ cs.map PComp.normal).map compToStr =
      List.replicate n ".." ++ cs := by
    rw [List.map_append, List.map_replicate, List.map_map]
    have e : (compToStr ∘ PComp.normal) = (id : String → String) := funext fun _ => rfl
    rw [e, List.map_id]
    rfl
  rw [hmapstr]
  cases hrep : List.replicate n ".." ++ cs with
  | nil =>
    rcases List.append_eq_nil.mp hrep with ⟨h1, h2⟩
    have hn : n = 0 := by
      cases n with
      | zero => rfl
      | succ m => rw [List.replicate_succ] at h1; exact List.noConfusion h1
    subst hn h2
    rfl
  | cons x xs =>
    rw [← hrep]
    rw [componentsOf_joinSlash (by rw [hrep]; simp)
      (by intro p hp
          rcases List.mem_append.mp hp with hp | hp
          · rw [List.eq_of_mem_replicate hp]
            refine ⟨by decide, by decide, by decide⟩
          · obtain ⟨h1, h2, h3, _⟩ := plainSeg_iff.mp (hcs p hp)
            exact ⟨h1, h2, h3⟩)]
    rw [List.map_append, List.map_replicate, if_pos rfl]
    congr 1
    apply List.map_congr_left
    intro p hp
    obtain ⟨_, _, _, h4⟩ := plainSeg_iff.mp (hcs p hp)
    rw [if_neg h4]

/-- The full round trip, stated over the two derived paths: the diff of the
"to" path against the parent folder of the "from" path succeeds, and
resolving the produced slash-joined link against that folder yields exactly
the "to" path's components. -/
theorem roundTrip_core {A B : List String}
    (hAplain : ∀ x ∈ A, plainSeg x = true) (hBplain : ∀ x ∈ B, plainSeg x = true) :
    ∃ R, diffPaths (joinSlash B) (joinSlash A.dropLast) = some R ∧
      componentsOf (joinSlash (R.map compToStr)) = R ∧
      resolveRel (componentsOf (joinSlash A.dropLast))
        (componentsOf (joinSlash (R.map compToStr))) = componentsOf (joinSlash B) := by
  have hAdrop : ∀ x ∈ A.dropLast, plainSeg x = true := fun x hx =>
    hAplain x (List.Sublist.mem hx (List.dropLast_sublist _))
  have hcompFolder : componentsOf (joinSlash A.dropLast) = A.dropLast.map PComp.normal :=
    componentsOf_joinSlash_plainAll hAdrop
  have hcompB : componentsOf (joinSlash B) = B.map PComp.normal :=
    componentsOf_joinSlash_plainAll hBplain
  have hdiffaux := diffAux_normal (B.map PComp.normal) (A.dropLast.map PComp.normal)
    normals_of_map normals_of_map
  have hcond : ¬(((joinSlash B).data.head? = some '/') ≠
      ((joinSlash A.dropLast).data.head? = some '/')) := by
    intro hne
    exact hne (by
      rw [eq_iff_iff]
      exact iff_of_false (joinSlash_head_ne_slash_plain hBplain)
        (joinSlash_head_ne_slash_plain hAdrop))
  have hdiff : diffPaths (joinSlash B) (joinSlash A.dropLast) =
      some (List.replicate ((A.dropLast.map PComp.normal).length -
          commonLen (B.map PComp.normal) (A.dropLast.map PComp.normal)) PComp.parentDir ++
        (B.map PComp.normal).drop
          (commonLen (B.map PComp.normal) (A.dropLast.map PComp.normal))) := by
    unfold diffPaths
    rw [if_neg hcond, hcompB, hcompFolder]
    exact hdiffaux
  refine ⟨_, hdiff, ?_, ?_⟩
  · -- componentsOf of the link string
    have hdropmap : (B.map PComp.normal).drop
        (commonLen (B.map PComp.normal) (A.dropLast.map PComp.normal)) =
        (B.drop (commonLen (B.map PComp.normal) (A.dropLast.map PComp.normal))).map
          PComp.normal := by
      rw [← List.map_drop]
    rw [hdropmap]
    exact componentsOf_link (fun p hp =>
      hBplain p (List.mem_of_mem_drop hp))
  · -- resolution
    have hdropmap : (B.map PComp.normal).drop
        (commonLen (B.map PComp.normal) (A.dropLast.map PComp.normal)) =
        (B.drop (commonLen (B.map PComp.normal) (A.dropLast.map PComp.normal))).map
          PComp.normal := by
      rw [← List.map_drop]
    rw [hdropmap, componentsOf_link (fun p hp => hBplain p (List.mem_of_mem_drop hp)),
      hcompFolder, hcompB, ← hdropmap]
    rw [resolveRel_split _ _ _ (fun c hc => normals_of_map c (List.mem_of_mem_drop hc))]
    have hk := commonLen_le_right (B.map PComp.normal) (A.dropLast.map PComp.normal)
    have harith : (A.dropLast.map PComp.normal).length -
        ((A.dropLast.map PComp.normal).length -
          commonLen (B.map PComp.normal) (A.dropLast.map PComp.normal)) =
        commonLen (B.map PComp.normal) (A.dropLast.map PComp.normal) := by omega
    rw [harith, ← take_commonLen, List.take_append_drop]

/-- A run of targets that are all missing from `included` is processed
without any panic: every target is skipped and warned about, and the
summary list is empty. -/
theorem processTargets_dangling (md : String → String) (doc : Document)
    (parent : Resource) (ids : List ResourceIdentifier)
    (h : ∀ rid ∈ ids, resourceById doc rid.id = none) :
    processTargets md doc parent ids =
      .ok ([], ids.map fun rid => Warning.mk rid.id) := by
  induction ids with
  | nil => rfl
  | cons rid rest ih =>
    have h0 := h rid (List.mem_cons_self _ _)
    simp only [processTargets, h0, ih (fun x hx => h x (List.mem_cons_of_mem _ hx)),
      List.map_cons]

/-- Every relationship entry of a successfully built `sections` object
appears in it, with the summaries its targets produced. -/
theorem buildSections_mem {md : String → String} {doc : Document} {parent : Resource} :
    ∀ {rels : List (String × Relationship)} {secs ws},
    buildSections md doc parent rels = .ok (secs, ws) →
    ∀ {key rel}, (key, rel) ∈ rels →
    ∃ ids sums ws', rel.data = .multipleId ids ∧
      processTargets md doc parent ids = .ok (sums, ws') ∧ (key, sums) ∈ secs := by
  intro rels
  induction rels with
  | nil =>
    intro secs ws _ key rel hmem
    exact absurd hmem (List.not_mem_nil _)
  | cons kr rest ih =>
    intro secs ws h key rel hmem
    obtain ⟨k0, r0⟩ := kr
    cases hdata : r0.data with
    | noneId =>
      simp only [buildSections, hdata] at h
      exact Except.noConfusion h
    | singleId rid =>
      simp only [buildSections, hdata] at h
      exact Except.noConfusion h
    | multipleId ids0 =>
      simp only [buildSections, hdata] at h
      cases hpt : processTargets md doc parent ids0 with
      | error p => simp only [hpt] at h; exact Except.noConfusion h
      | ok pair =>
        obtain ⟨sums0, ws0⟩ := pair
        simp only [hpt] at h
        cases hbs : buildSections md doc parent rest with
        | error p => simp only [hbs] at h; exact Except.noConfusion h
        | ok pair2 =>
          obtain ⟨secs1, ws1⟩ := pair2
          simp only [hbs] at h
          obtain ⟨hsecs, hws⟩ := Prod.mk.inj (Except.ok.inj h)
          rcases List.mem_cons.mp hmem with heq | hmem2
          · obtain ⟨hk, hr⟩ := Prod.mk.inj heq
            subst hk
            subst hr
            exact ⟨ids0, sums0, ws0, hdata, hpt, by
              rw [← hsecs]; exact List.mem_cons_self _ _⟩
          · obtain ⟨ids, sums, ws', h1, h2, h3⟩ := ih hbs hmem2
            exact ⟨ids, sums, ws', h1, h2, by
              rw [← hsecs]; exact List.mem_cons_of_mem _ h3⟩

/-- A successful `generate_context` on a resource with relationships carries
a successfully built `sections` object. -/
theorem generateContext_sections {md : String → String} {doc : Document} {r : Resource}
    {c : Context} {ws : List Warning} {rels : List (String × Relationship)}
    (h : generateContext md doc r = .ok (c, ws))
    (hrels : r.relationships = some rels) :
    ∃ ds secs, docsForResource md r = .ok ds ∧
      buildSections md doc r rels = .ok (secs, ws) ∧ c.sections = some secs := by
  unfold generateContext at h
  cases hds : docsForResource md r with
  | error p => rw [hds] at h; exact Except.noConfusion h
  | ok ds =>
    simp only [hds, hrels] at h
    cases hbs : buildSections md doc r rels with
    | error p => simp only [hbs] at h; exact Except.noConfusion h
    | ok pair =>
      obtain ⟨secs, ws'⟩ := pair
      simp only [hbs] at h
      obtain ⟨hc, hw⟩ := Prod.mk.inj (Except.ok.inj h)
      subst hw
      exact ⟨ds, secs, rfl, rfl, by rw [← hc]⟩

/-- Successful `generate_context` always carries the resource's kind and its
full identifier as `name`. -/
theorem generateContext_type_name {md : String → String} {doc : Document} {r : Resource}
    {c : Context} {ws : List Warning} (h : generateContext md doc r = .ok (c, ws)) :
    c.type_ = r.type_ ∧ c.name = r.id := by
  unfold generateContext at h
  cases hds : docsForResource md r with
  | error p => rw [hds] at h; exact Except.noConfusion h
  | ok ds =>
    simp only [hds] at h
    cases hrels : r.relationships with
    | none =>
      simp only [hrels] at h
      obtain ⟨hc, hw⟩ := Prod.mk.inj (Except.ok.inj h)
      rw [← hc]
      exact ⟨rfl, rfl⟩
    | some rels =>
      simp only [hrels] at h
      cases hbs : buildSections md doc r rels with
      | error p => simp only [hbs] at h; exact Except.noConfusion h
      | ok pair =>
        obtain ⟨secs, ws'⟩ := pair
        simp only [hbs] at h
        obtain ⟨hc, hw⟩ := Prod.mk.inj (Except.ok.inj h)
        rw [← hc]
        exact ⟨rfl, rfl⟩

/-- C1 (counterexample): entities are identified by arbitrary strings, and
distinct identifiers do not guarantee distinct paths: the module identifiers
`a` and `a::` are distinct, yet both derive the output path `a/index.html`
(splitting `a::` on `::` gives a trailing empty segment, which `PathBuf`
swallows), so the claimed collision-freedom fails. -/
theorem c1_counterexample :
    pathForResource { type_ := "module", id := "a" } = .ok "a/index.html" ∧
    pathForResource { type_ := "module", id := "a::" } = .ok "a/index.html" ∧
    ("a" : String) ≠ "a::" :=
  ⟨rfl, rfl, by decide⟩

/-- C1 (amended): for entities whose identifiers are well formed — every
`::`-separated segment nonempty, slash-free and not `.` or `..` — distinct
identifiers derive distinct output paths whenever path derivation
succeeds. -/
theorem c1_amended (a b : Resource) (pa pb : String)
    (hwa : wfId a.id = true) (hwb : wfId b.id = true) (hne : a.id ≠ b.id)
    (hpa : pathForResource a = .ok pa) (hpb : pathForResource b = .ok pb) :
    pa ≠ pb :=
  pathForResource_inj a b hwa hwb hne hpa hpb

/-- C1 (witness): the amended statement applied to the repository's two test
entities. -/
theorem c1_amended_witness :
    ("test_crate/test_module/index.html" : String) ≠ "test_crate/struct.TestStruct.html" :=
  c1_amended moduleRes structRes "test_crate/test_module/index.html"
    "test_crate/struct.TestStruct.html" rfl rfl (by decide) rfl rfl

/-- C2 (counterexample): path derivation succeeds on the module entities
`..::x` (path `../x/index.html`) and `y` (path `y/index.html`), yet no
relative link is produced for the pair at all: `pathdiff::diff_paths` meets
the parent-directory component of the base and returns `None`, which the
source `unwrap`s — a panic — so the claimed resolution property fails for
this pair. -/
theorem c2_counterexample :
    pathForResource { type_ := "module", id := "..::x" } = .ok "../x/index.html" ∧
    pathForResource { type_ := "module", id := "y" } = .ok "y/index.html" ∧
    linkFor { type_ := "module", id := "..::x" } { type_ := "module", id := "y" } =
      .error .unwrapNone :=
  ⟨rfl, rfl, rfl⟩

/-- C2 (amended): for entities with well-formed identifiers on which path
derivation succeeds, the link block of `generate_context` produces a
slash-joined relative link whose components, resolved against the parent
directory of the "from" path, yield exactly the components of the "to"
path. -/
theorem c2_amended (a b : Resource) (pa pb : String)
    (hwa : wfId a.id = true) (hwb : wfId b.id = true)
    (hpa : pathForResource a = .ok pa) (hpb : pathForResource b = .ok pb) :
    ∃ folder R, parentPath pa = some folder ∧
      linkFor a b = .ok (joinSlash (R.map compToStr)) ∧
      componentsOf (joinSlash (R.map compToStr)) = R ∧
      resolveRel (componentsOf folder) R = componentsOf pb := by
  obtain ⟨A, hAne, hAplain, rfl⟩ := path_shape hwa hpa
  obtain ⟨B, hBne, hBplain, rfl⟩ := path_shape hwb hpb
  obtain ⟨R, hdiff, hcomp, hres⟩ := roundTrip_core hAplain hBplain
  have hfolder := parentPath_joinSlash_plain hAne hAplain
  refine ⟨joinSlash A.dropLast, R, hfolder, linkFor_eval hpa hfolder hpb hdiff, hcomp, ?_⟩
  rw [← hcomp]
  exact hres

/-- C2 (witness): the amended statement applied to the spec's concrete
scenario — a module and a struct it contains, in the same output
directory. -/
theorem c2_amended_witness :
    wfId moduleRes.id = true ∧ wfId childStructRes.id = true ∧
    ∃ folder R, parentPath "test_crate/test_module/index.html" = some folder ∧
      linkFor moduleRes childStructRes = .ok (joinSlash (R.map compToStr)) ∧
      componentsOf (joinSlash (R.map compToStr)) = R ∧
      resolveRel (componentsOf folder) R =
        componentsOf "test_crate/test_module/struct.TestStruct.html" :=
  ⟨rfl, rfl, c2_amended moduleRes childStructRes "test_crate/test_module/index.html"
    "test_crate/test_module/struct.TestStruct.html" rfl rfl rfl rfl⟩

/-- C3 (counterexample): the module identifier `a::` has two
separator-delimited segments, but its derived path `a/index.html` has only
one directory segment before `index.html`, so the claimed segment count
fails. -/
theorem c3_counterexample :
    pathForResource { type_ := "module", id := "a::" } = .ok "a/index.html" ∧
    strSplitCC "a::" = ["a", ""] ∧
    componentsOf "a/index.html" = [PComp.normal "a", PComp.normal "index.html"] ∧
    (strSplitCC "a::").length ≠ ((componentsOf "a/index.html").length - 1) :=
  ⟨rfl, rfl, rfl, by decide⟩

/-- C3 (amended): for entities with well-formed identifiers of kind `module`
or `crate`, the derived path is the identifier's `::`-segments joined as
directories followed by `index.html`, and its components are exactly one
normal directory component per identifier segment followed by the
`index.html` file component; in particular the component count is the
segment count plus one. -/
theorem c3_amended (r : Resource) (hw : wfId r.id = true)
    (hk : r.type_ = "module" ∨ r.type_ = "crate") :
    pathForResource r = .ok (joinSlash (strSplitCC r.id ++ ["index.html"])) ∧
    componentsOf (joinSlash (strSplitCC r.id ++ ["index.html"])) =
      (strSplitCC r.id).map PComp.normal ++ [PComp.normal "index.html"] ∧
    (componentsOf (joinSlash (strSplitCC r.id ++ ["index.html"]))).length =
      (strSplitCC r.id).length + 1 := by
  have hplain : ∀ x ∈ strSplitCC r.id ++ ["index.html"], plainSeg x = true := by
    intro x hx
    rcases List.mem_append.mp hx with hx | hx
    · exact List.all_eq_true.mp hw x hx
    · rw [List.mem_singleton] at hx
      subst hx
      decide
  have hcomp := componentsOf_joinSlash_plainAll hplain
  refine ⟨pathForResource_module hw hk, ?_, ?_⟩
  · rw [hcomp, List.map_append]
    rfl
  · rw [hcomp]
    simp

/-- C3 (witness): the amended statement applied to the repository's test
module `test_crate::test_module`, whose derived path is
`test_crate/test_module/index.html`. -/
theorem c3_amended_witness :
    pathForResource moduleRes = .ok "test_crate/test_module/index.html" ∧
    componentsOf "test_crate/test_module/index.html" =
      [PComp.normal "test_crate", PComp.normal "test_module", PComp.normal "index.html"] := by
  have h := c3_amended moduleRes rfl (Or.inl rfl)
  refine ⟨by rw [h.1]; rfl, ?_⟩
  rw [show ("test_crate/test_module/index.html" : String) =
    joinSlash (strSplitCC moduleRes.id ++ ["index.html"]) from rfl, h.2.1]
  rfl

/-- C4 (counterexample): for the struct identifier `a::..`, the collected
path is `a/..`, whose `file_name()` is `None`; the source `unwrap`s it, so
path derivation panics instead of dropping the final segment and appending
`struct.<short-name>.html` as claimed. -/
theorem c4_counterexample :
    pathForResource { type_ := "struct", id := "a::.." } = .error .unwrapNone ∧
    pathForResource { type_ := "struct", id := "a::.." } ≠
      .ok (joinSlash ((strSplitCC "a::..").dropLast ++
        ["struct." ++ lastSegment "a::.." ++ ".html"])) :=
  ⟨rfl, fun h => Except.noConfusion h⟩

/-- C4 (amended): for entities with well-formed identifiers of kind
`struct`, the derived path drops the identifier's final segment from the
directory path and appends `struct.<short-name>.html`, where `<short-name>`
is the identifier's final segment. -/
theorem c4_amended (r : Resource) (hw : wfId r.id = true) (hk : r.type_ = "struct") :
    pathForResource r = .ok (joinSlash ((strSplitCC r.id).dropLast ++
      ["struct." ++ lastSegment r.id ++ ".html"])) :=
  pathForResource_struct hw hk

/-- C4 (witness): the amended statement applied to the repository's test
struct `test_crate::TestStruct`, whose derived path is
`test_crate/struct.TestStruct.html`. -/
theorem c4_amended_witness :
    pathForResource structRes = .ok "test_crate/struct.TestStruct.html" := by
  rw [c4_amended structRes rfl rfl]
  rfl

/-- C5: dangling relationship targets never abort the run: processing a
target list that is entirely missing from `included` succeeds
unconditionally with an empty summary list and one warning (naming the
missing id) per target; and in any successfully built context, the
relationship entry still appears under its name, as an empty list. -/
theorem c5_dangling (md : String → String) (doc : Document) (r : Resource)
    (ids : List ResourceIdentifier)
    (hdangling : ∀ rid ∈ ids, resourceById doc rid.id = none) :
    processTargets md doc r ids = .ok ([], ids.map fun rid => Warning.mk rid.id) ∧
    (∀ rels key rel c ws, r.relationships = some rels → (key, rel) ∈ rels →
      rel.data = .multipleId ids →
      generateContext md doc r = .ok (c, ws) →
      ∃ secs, c.sections = some secs ∧ (key, ([] : List Summary)) ∈ secs) := by
  refine ⟨processTargets_dangling md doc r ids hdangling, ?_⟩
  intro rels key rel c ws hrels hmem hdata hctx
  obtain ⟨ds, secs, hds, hbs, hsecs⟩ := generateContext_sections hctx hrels
  obtain ⟨ids', sums, ws', hd1, hd2, hd3⟩ := buildSections_mem hbs hmem
  rw [hdata] at hd1
  have hids : ids = ids' := IdentifierData.multipleId.inj hd1
  subst hids
  rw [processTargets_dangling md doc r ids hdangling] at hd2
  obtain ⟨hsums, _⟩ := Prod.mk.inj (Except.ok.inj hd2)
  refine ⟨secs, hsecs, ?_⟩
  rw [← hsums] at hd3
  exact hd3

/-- C5 (witness): the concrete dangling scenario — one relationship entry
`items` whose only target `missing::X` is absent from `included`: the run
yields one warning, and the context's `sections` contains `items` as an
empty list. -/
theorem c5_dangling_witness :
    processTargets mdEmpty danglingDoc danglingParent [⟨"struct", "missing::X"⟩] =
      .ok ([], [Warning.mk "missing::X"]) ∧
    ∃ secs, danglingCtx.sections = some secs ∧
      ("items", ([] : List Summary)) ∈ secs := by
  have h := c5_dangling mdEmpty danglingDoc danglingParent [⟨"struct", "missing::X"⟩]
    (by intro rid hrid
        rw [List.mem_singleton] at hrid
        subst hrid
        rfl)
  exact ⟨h.1, h.2 [("items", ⟨.multipleId [⟨"struct", "missing::X"⟩]⟩)] "items"
    ⟨.multipleId [⟨"struct", "missing::X"⟩]⟩ danglingCtx [Warning.mk "missing::X"]
    rfl (List.mem_singleton.mpr rfl) rfl rfl⟩

/-- C6 (counterexample): the context built for the module
`test_crate::test_module` carries the FULL identifier as its `name`, not
the identifier's last segment `test_module` required by the claim. -/
theorem c6_counterexample :
    generateContext mdEmpty emptyDoc moduleRes = .ok (moduleCtx, []) ∧
    moduleCtx.name = "test_crate::test_module" ∧
    lastSegment moduleRes.id = "test_module" ∧
    moduleCtx.name ≠ lastSegment moduleRes.id :=
  ⟨rfl, rfl, rfl, by decide⟩

/-- C6 (amended): whenever `generate_context` succeeds, the produced context
contains the entity's kind and, as its name, the entity's full identifier
(the last-segment display name is used only for the summaries inside
`sections`). -/
theorem c6_amended (md : String → String) (doc : Document) (r : Resource)
    (c : Context) (ws : List Warning)
    (h : generateContext md doc r = .ok (c, ws)) :
    c.type_ = r.type_ ∧ c.name = r.id :=
  generateContext_type_name h

/-- C6 (witness): the amended statement at the test module. -/
theorem c6_amended_witness :
    moduleCtx.type_ = moduleRes.type_ ∧ moduleCtx.name = moduleRes.id :=
  c6_amended mdEmpty emptyDoc moduleRes moduleCtx [] rfl

/-- C7: `docs_for_resource` yields nothing when the docs attribute is
absent, yields nothing when markdown conversion of a present string
attribute is empty, and yields a value exactly when the attribute is
present as a string whose conversion is nonempty (the value being the
converted HTML). -/
theorem c7_docs (md : String → String) (r : Resource) :
    (lookupAttr r.attributes "docs" = none → docsForResource md r = .ok none) ∧
    (∀ s, lookupAttr r.attributes "docs" = some (.str s) → md s = "" →
      docsForResource md r = .ok none) ∧
    (∀ h, docsForResource md r = .ok (some h) ↔
      ∃ s, lookupAttr r.attributes "docs" = some (.str s) ∧ md s ≠ "" ∧ h = md s) := by
  refine ⟨?_, ?_, ?_⟩
  · intro h
    unfold docsForResource
    rw [h]
  · intro s hs hmd
    unfold docsForResource
    rw [hs]
    simp [hmd]
  · intro h
    constructor
    · intro heq
      unfold docsForResource at heq
      cases hl : lookupAttr r.attributes "docs" with
      | none => simp only [hl] at heq; simp at heq
      | some v =>
        cases v with
        | nonStr => simp only [hl] at heq; exact Except.noConfusion heq
        | str s =>
          simp only [hl] at heq
          by_cases hmd : md s = ""
          · simp [hmd] at heq
          · refine ⟨s, rfl, hmd, ?_⟩
            simp only [if_pos hmd] at heq
            simpa [hmd] using (Except.ok.inj heq).symm
    · rintro ⟨s, hs, hmd, rfl⟩
      unfold docsForResource
      rw [hs]
      simp [hmd]

/-- C7 (witness): an absent attribute yields nothing; a present nonempty
string attribute yields its conversion. -/
theorem c7_docs_witness :
    docsForResource mdEmpty moduleRes = .ok none ∧
    docsForResource (fun s => s) docsRes = .ok (some "# d") := by
  refine ⟨(c7_docs mdEmpty moduleRes).1 rfl, ?_⟩
  exact ((c7_docs (fun s => s) docsRes).2.2 "# d").mpr ⟨"# d", rfl, by decide, rfl⟩

/-- C8 (counterexample): for the unsupported kind `enum`, path derivation
does not return a typed failure result — the Rust function's return type
(`PathBuf`) has no failure channel — it hits `unimplemented!()`, a panic,
and a run reaching such an entity aborts with that panic rather than
finishing with the run's returned error result. -/
theorem c8_counterexample :
    pathForResource enumRes = .error .notImplemented ∧
    renderDocs worldOK mdEmpty docWithEnum "out" =
      ([Event.createdDir "out/doc2"], .panicked .notImplemented) :=
  ⟨rfl, rfl⟩

/-- C8 (amended): for every entity of an unsupported kind (anything but
`crate`, `module`, `struct`), path derivation aborts via the
`unimplemented!()` panic — applying no default or fallback path scheme —
rather than returning a typed failure result. -/
theorem c8_amended (r : Resource) (h1 : r.type_ ≠ "module") (h2 : r.type_ ≠ "crate")
    (h3 : r.type_ ≠ "struct") : pathForResource r = .error .notImplemented := by
  unfold pathForResource
  rw [if_neg (not_or.mpr ⟨h1, h2⟩), if_neg h3]

/-- C8 (witness): the amended statement at the `enum` entity. -/
theorem c8_amended_witness : pathForResource enumRes = .error .notImplemented :=
  c8_amended enumRes (by decide) (by decide) (by decide)

/-- C9 (counterexample): with a template engine reporting a rendering
failure, the run does not surface the failure as its returned error result:
the source `unwrap`s the render result, so the run aborts with a panic
(after the directory and file were created — no cleanup). -/
theorem c9_counterexample :
    renderDocs worldRenderFail mdEmpty docCrate "out" =
      ([Event.createdDir "out/doc2", Event.createdDir "out/doc2/test_crate",
        Event.createdFile "out/doc2/test_crate/index.html"], .panicked .renderUnwrap) :=
  rfl

/-- C9 (amended): directory-creation and file-creation failures are fatal
and surfaced verbatim as the returned error result (propagating unchanged
through `render_docs`); template-rendering and file-write failures are
fatal but abort the run via panic instead of the returned error; in every
case the run stops at once with no cleanup, retry, or per-entity
recovery. -/
theorem c9_amended (w : World) (md : String → String) (doc : Document) (r : Resource)
    (docRoot : String) (rel parentDir : String)
    (hpath : pathForResource r = .ok rel)
    (hparent : parentPath (pushPath docRoot rel) = some parentDir) :
    (∀ e, w.createDirAll parentDir = .error e →
      writeDoc w md doc r docRoot = ([], .ioError e)) ∧
    (∀ e, w.createDirAll parentDir = .ok () →
      w.createFile (pushPath docRoot rel) = .error e →
      writeDoc w md doc r docRoot = ([.createdDir parentDir], .ioError e)) ∧
    (∀ ctx ws e, w.createDirAll parentDir = .ok () →
      w.createFile (pushPath docRoot rel) = .ok () →
      generateContext md doc r = .ok (ctx, ws) →
      w.render ctx = .error e →
      writeDoc w md doc r docRoot =
        ([.createdDir parentDir, .createdFile (pushPath docRoot rel)],
          .panicked .renderUnwrap)) ∧
    (∀ ctx ws out e, w.createDirAll parentDir = .ok () →
      w.createFile (pushPath docRoot rel) = .ok () →
      generateContext md doc r = .ok (ctx, ws) →
      w.render ctx = .ok out →
      w.writeAll (pushPath docRoot rel) out = .error e →
      writeDoc w md doc r docRoot =
        ([.createdDir parentDir, .createdFile (pushPath docRoot rel)],
          .panicked .writeUnwrap)) ∧
    (∀ root evs e, w.registerTemplate = .ok () →
      w.createDirAll (pushPath root "doc2") = .ok () →
      doc.data = some (.single r) →
      writeDoc w md doc r (pushPath root "doc2") = (evs, Outcome.ioError e) →
      renderDocs w md doc root =
        ([Event.createdDir (pushPath root "doc2")] ++ evs, .ioError e)) := by
  refine ⟨?_, ?_, ?_, ?_, ?_⟩
  · intro e hdir
    unfold writeDoc
    simp only [hpath, hparent, hdir]
  · intro e hdir hfile
    unfold writeDoc
    simp only [hpath, hparent, hdir, hfile]
  · intro ctx ws e hdir hfile hctx hrender
    unfold writeDoc
    simp only [hpath, hparent, hdir, hfile, hctx, hrender]
  · intro ctx ws out e hdir hfile hctx hrender hwrite
    unfold writeDoc
    simp only [hpath, hparent, hdir, hfile, hctx, hrender, hwrite]
  · intro root evs e hreg hdir hdata hw
    unfold renderDocs
    simp only [hreg, hdir, hdata, hw]

/-- C9 (witness): a failing directory creation surfaces as the returned
error of `write_doc`. -/
theorem c9_amended_witness :
    writeDoc worldDirFail mdEmpty docCrate crateRes "out/doc2" = ([], .ioError ⟨7⟩) :=
  (c9_amended worldDirFail mdEmpty docCrate crateRes "out/doc2"
    "test_crate/index.html" "out/doc2/test_crate" rfl rfl).1 ⟨7⟩ rfl

/-- C10: on a document whose `included` collection is absent, `render_docs`
never returns success — the source `unwrap`s `document.included` only after
writing the primary entity's documentation — and when everything up to the
primary succeeds, the run's event trace shows the primary fully rendered
before the `unwrap` panic aborts the run. -/
theorem c10_included_none (w : World) (md : String → String) (doc : Document)
    (root : String) (h : doc.included = none) :
    (renderDocs w md doc root).2 ≠ Outcome.ok ∧
    (∀ primary evs, w.registerTemplate = .ok () →
      w.createDirAll (pushPath root "doc2") = .ok () →
      doc.data = some (.single primary) →
      writeDoc w md doc primary (pushPath root "doc2") = (evs, Outcome.ok) →
      renderDocs w md doc root =
        ([Event.createdDir (pushPath root "doc2")] ++ evs, .panicked .unwrapNone)) := by
  constructor
  · intro hok
    unfold renderDocs at hok
    cases hreg : w.registerTemplate with
    | error e => simp [hreg] at hok
    | ok u =>
      simp only [hreg] at hok
      cases hdir : w.createDirAll (pushPath root "doc2") with
      | error e => simp [hdir] at hok
      | ok u2 =>
        simp only [hdir] at hok
        cases hdata : doc.data with
        | none => simp [hdata] at hok
        | some pd =>
          cases pd with
          | nonePD => simp [hdata] at hok
          | multiple rs => simp [hdata] at hok
          | single primary =>
            simp only [hdata] at hok
            cases hw : writeDoc w md doc primary (pushPath root "doc2") with
            | mk evs out =>
              cases out with
              | ok => simp only [hw, h] at hok; simp at hok
              | ioError e => simp [hw] at hok
              | panicked p => simp [hw] at hok
  · intro primary evs hreg hdir hdata hw
    unfold renderDocs
    simp only [hreg, hdir, hdata, hw, h]

/-- C10 (witness): a concrete run on a document with `included` absent: the
primary crate's documentation file is created and written, then the run
aborts with the `unwrap` panic instead of returning success. -/
theorem c10_included_none_witness :
    (renderDocs worldOK mdEmpty docNoIncluded "out").2 ≠ Outcome.ok ∧
    renderDocs worldOK mdEmpty docNoIncluded "out" =
      ([Event.createdDir "out/doc2", Event.createdDir "out/doc2/test_crate",
        Event.createdFile "out/doc2/test_crate/index.html",
        Event.wrote "out/doc2/test_crate/index.html" "HTML"], .panicked .unwrapNone) := by
  have h := c10_included_none worldOK mdEmpty docNoIncluded "out" rfl
  refine ⟨h.1, ?_⟩
  exact h.2 crateRes [Event.createdDir "out/doc2/test_crate",
    Event.createdFile "out/doc2/test_crate/index.html",
    Event.wrote "out/doc2/test_crate/index.html" "HTML"] rfl rfl rfl rfl

end RustdocStatic
